import Mathlib

/-!
# Verification of the identfinder core

Shallow embedding of the core of `identfinder` (scope-tracking AST walk that
flags string literals containing in-scope identifier names), together with
proofs and refutations of the frozen specification claims.

Go strings are byte sequences and the matcher classifies single bytes
(converted to runes, hence Latin-1 code points); we model them as `List Nat`
of code points `< 256`.  Character-class tables (`unicode.IsSpace`,
`unicode.IsPunct`, `unicode.IsSymbol`, `unicode.IsLetter`, `unicode.IsDigit`
from the Go standard library) are tabulated over the Latin-1 range, the whole
domain the program ever classifies.
-/

set_option maxRecDepth 16384

namespace Identfinder

/-- A Go string, as its sequence of byte values. -/
abbrev GoStr := List Nat

/-- `unicode.IsSpace` restricted to the Latin-1 range (White_Space property:
TAB..CR, SPACE, NEL 0x85, NBSP 0xA0). -/
def isSpaceGo (c : Nat) : Bool :=
  (9 ≤ c && c ≤ 13) || c == 32 || c == 133 || c == 160

/-- `unicode.IsPunct` (Unicode category P) restricted to the Latin-1 range. -/
def isPunctGo (c : Nat) : Bool :=
  c == 33 || c == 34 || c == 35 || c == 37 || c == 38 || c == 39 ||
  c == 40 || c == 41 || c == 42 || c == 44 || c == 45 || c == 46 ||
  c == 47 || c == 58 || c == 59 || c == 63 || c == 64 || c == 91 ||
  c == 92 || c == 93 || c == 95 || c == 123 || c == 125 ||
  c == 161 || c == 167 || c == 171 || c == 182 || c == 183 ||
  c == 187 || c == 191

/-- `unicode.IsSymbol` (Unicode category S) restricted to the Latin-1 range. -/
def isSymbolGo (c : Nat) : Bool :=
  c == 36 || c == 43 || c == 60 || c == 61 || c == 62 || c == 94 ||
  c == 96 || c == 124 || c == 126 ||
  c == 162 || c == 163 || c == 164 || c == 165 || c == 166 ||
  c == 168 || c == 169 || c == 172 || c == 174 || c == 175 ||
  c == 176 || c == 177 || c == 180 || c == 184 || c == 215 || c == 247

/-- `unicode.IsLetter` (Unicode category L) restricted to the Latin-1 range. -/
def isLetterGo (c : Nat) : Bool :=
  (65 ≤ c && c ≤ 90) || (97 ≤ c && c ≤ 122) ||
  c == 170 || c == 181 || c == 186 ||
  (192 ≤ c && c ≤ 214) || (216 ≤ c && c ≤ 246) || (248 ≤ c && c ≤ 255)

/-- `unicode.IsDigit` (Unicode category Nd) restricted to the Latin-1 range. -/
def isDigitGo (c : Nat) : Bool :=
  48 ≤ c && c ≤ 57

/-- `isBoundary` (source `isBoundary`): whitespace, or punctuation/symbol
excluding `\\` (92) and `%` (37). -/
def isBoundary (r : Nat) : Bool :=
  if isSpaceGo r then
    true
  else if isPunctGo r || isSymbolGo r then
    if r == 92 || r == 37 then false else true
  else
    false

/-- `strings.Index l pat`: index of the leftmost occurrence of `pat` as a
contiguous sublist of `l`, or `none` (Go returns `-1`). -/
def strIndex (l pat : GoStr) : Option Nat :=
  if pat.isPrefixOf l then
    some 0
  else
    match l with
    | [] => none
    | _ :: tl => (strIndex tl pat).map (· + 1)

/-- The scanning loop of `containsIdentifier` (source lines 664-697),
fuel-indexed: `none` means the fuel ran out (never happens, see
`containsIdentifier_terminates`).  `ss` is Go's `searchStart`.  Go's nested
`if` blocks with `continue` are linearized into an if-chain: reject when a
preceding character exists and is `\\`/`%`, or exists and is not a boundary
(resume at `pos + id.length`), or when a following character exists and is
not a boundary (resume at `pos + 1`); otherwise accept. -/
def containsIdAux (literal id : GoStr) : Nat → Nat → Option Bool
  | 0, _ => none
  | fuel + 1, ss =>
    match strIndex (literal.drop ss) id with
    | none => some false
    | some idx =>
      let pos := ss + idx
      if 0 < pos && ((literal.getD (pos - 1) 0) == 92 || (literal.getD (pos - 1) 0) == 37) then
        containsIdAux literal id fuel (pos + id.length)
      else if 0 < pos && !(isBoundary (literal.getD (pos - 1) 0)) then
        containsIdAux literal id fuel (pos + id.length)
      else if pos + id.length < literal.length && !(isBoundary (literal.getD (pos + id.length) 0)) then
        containsIdAux literal id fuel (pos + 1)
      else
        some true

/-- `containsIdentifier` before fuel erasure: `some` result of the scan, with
the empty-name guard of the source. -/
def containsIdentifierOpt (literal id : GoStr) : Option Bool :=
  if id.isEmpty then some false
  else containsIdAux literal id (literal.length + 1) 0

/-- `containsIdentifier` (source lines 659-698). -/
def containsIdentifier (literal id : GoStr) : Bool :=
  (containsIdentifierOpt literal id).getD false

/-- Acceptance of a candidate position, in the words of the specification
(claim C1): `id` occurs at `pos`; if a preceding character exists it is
neither `\\` nor `%` and is a boundary; if a following character exists it is
a boundary. -/
def acceptedB (literal id : GoStr) (pos : Nat) : Bool :=
  id.isPrefixOf (literal.drop pos) &&
  (pos == 0 ||
    (!((literal.getD (pos - 1) 0) == 92) && !((literal.getD (pos - 1) 0) == 37) &&
      isBoundary (literal.getD (pos - 1) 0))) &&
  (!(pos + id.length < literal.length) || isBoundary (literal.getD (pos + id.length) 0))

/-- Byte list of a Lean string literal (all our concrete inputs are ASCII). -/
def gs (s : String) : GoStr := s.data.map Char.toNat

/-- `strings.Trim`'s left pass for the cutset `` "`\"" ``: drop leading
quotes (34) and backticks (96). -/
def trimLeftQ : GoStr → GoStr
  | [] => []
  | c :: rest => if c == 34 || c == 96 then trimLeftQ rest else c :: rest

/-- ``strings.Trim(v, "`\"")`` as used by `checkString`: drop all leading and
trailing quote/backtick characters. -/
def trimQuotes (l : GoStr) : GoStr :=
  (trimLeftQ (trimLeftQ l).reverse).reverse

/-- `matchInfo` (source struct). -/
structure MatchInfo where
  file : GoStr
  lineNumber : Nat
  identifier : GoStr
  stringText : GoStr
  entireLine : GoStr
deriving DecidableEq

/-- `scopeVisitor` state.  A `scope`'s `map[string]struct{}` is modelled as an
insertion-ordered duplicate-free list (one consistent iteration order).  The
bottom of `scopeStack` is the file scope, the top is the last element, as in
the Go slice.  The Go globals `totalStrings` / `matchedStrings` are threaded
through the state explicitly.  Two ghost fields record facts the Go code
exhibits but does not store: `underflow` is set if `popScope`/`addName` ever
runs on an empty stack (in Go that slice/index operation would panic), and
`visitLog` records, for each `checkString` call, the pair of arguments the
matcher loop is run on (the trimmed literal text and the `inScope()` name
list). -/
structure ScopeV where
  filePath : GoStr
  srcLines : List GoStr
  matchList : List MatchInfo
  stringCount : Nat
  matchCount : Nat
  scopeStack : List (List GoStr)
  totalStrings : Nat
  matchedStrings : Nat
  underflow : Bool
  visitLog : List (GoStr × List GoStr)
deriving DecidableEq

/-- `newScopeVisitor`: one empty (global) frame. -/
def newScopeVisitor (filePath : GoStr) (srcLines : List GoStr) : ScopeV :=
  { filePath := filePath, srcLines := srcLines, matchList := [],
    stringCount := 0, matchCount := 0, scopeStack := [[]],
    totalStrings := 0, matchedStrings := 0, underflow := false, visitLog := [] }

/-- `pushScope`: append an empty frame at the top (end). -/
def pushScope (v : ScopeV) : ScopeV :=
  { v with scopeStack := v.scopeStack ++ [[]] }

/-- `popScope`: discard the top frame; on an empty stack the Go slicing
`v.scopeStack[:len-1]` would panic, recorded by the ghost flag. -/
def popScope (v : ScopeV) : ScopeV :=
  match v.scopeStack with
  | [] => { v with underflow := true }
  | _ :: _ => { v with scopeStack := v.scopeStack.dropLast }

/-- Set-insert into a frame (map insert is idempotent; order = insertion). -/
def frameInsert (fr : List GoStr) (nm : GoStr) : List GoStr :=
  if nm ∈ fr then fr else fr ++ [nm]

/-- Apply `f` to the last element of a list. -/
def updateLast (f : List GoStr → List GoStr) : List (List GoStr) → List (List GoStr)
  | [] => []
  | [a] => [f a]
  | a :: b :: rest => a :: updateLast f (b :: rest)

/-- `addName`: insert into the top frame; on an empty stack the Go indexing
`v.scopeStack[len-1]` would panic, recorded by the ghost flag. -/
def addName (v : ScopeV) (nm : GoStr) : ScopeV :=
  match v.scopeStack with
  | [] => { v with underflow := true }
  | _ :: _ => { v with scopeStack := updateLast (fun fr => frameInsert fr nm) v.scopeStack }

/-- Fold `addName` over a name list (parameter/result name loops). -/
def addNames (v : ScopeV) : List GoStr → ScopeV
  | [] => v
  | nm :: rest => addNames (addName v nm) rest

/-- `inScope`: all names of all active frames, bottom to top. -/
def inScope (v : ScopeV) : List GoStr :=
  v.scopeStack.flatten

/-- A `GenDecl` spec inside a `DeclStmt`: `ValueSpec` names or a `TypeSpec`
name. -/
inductive DeclSpec : Type
  | valueSpec (names : List GoStr)
  | typeSpec (name : GoStr)
deriving DecidableEq

/-- The fragment of the Go AST the walker distinguishes.  `funcDecl`'s
parameter and named-result fields are flattened to their name lists; its body
is `[]` for a nil body and a singleton for a present body (the body block).
`assignStmt` keeps its token kind as `isDefine` (`:=` vs `=`) and its operand
expressions; `declStmt` keeps its `GenDecl` specs and the expression children
walked generically afterwards.  Any node the `Visit` switch does not handle
specially is `other` with its children. -/
inductive GoNode : Type
  | ident (name : GoStr)
  | basicLit (isString : Bool) (value : GoStr) (line : Nat)
  | funcDecl (name : GoStr) (params : List GoStr) (results : List GoStr) (body : List GoNode)
  | blockStmt (stmts : List GoNode)
  | assignStmt (isDefine : Bool) (lhs : List GoNode) (rhs : List GoNode)
  | declStmt (specs : List DeclSpec) (children : List GoNode)
  | fileNode (decls : List GoNode)
  | other (children : List GoNode)

/-- The `*ast.Ident` extraction of the `AssignStmt` case: only identifier
operands on the left-hand side are declared. -/
def addIdents (v : ScopeV) : List GoNode → ScopeV
  | [] => v
  | .ident nm :: rest => addIdents (addName v nm) rest
  | _ :: rest => addIdents v rest

/-- Declaration processing of the `DeclStmt` case. -/
def addSpecs (v : ScopeV) : List DeclSpec → ScopeV
  | [] => v
  | .valueSpec nms :: rest => addSpecs (addNames v nms) rest
  | .typeSpec nm :: rest => addSpecs (addName v nm) rest

/-- `checkString` (source lines 623-654): trim the delimiters, read the
in-scope names, record a match for the first name the matcher accepts (the
loop `break`s after one), bump the matched counters on success and the
observed global counter unconditionally.  The ghost `visitLog` records the
matcher-loop arguments. -/
def checkString (v : ScopeV) (litValue : GoStr) (line : Nat) : ScopeV :=
  let literalText := trimQuotes litValue
  let names := inScope v
  let entireLine :=
    if 1 ≤ line && line - 1 < v.srcLines.length then v.srcLines.getD (line - 1) [] else []
  let v1 := { v with visitLog := v.visitLog ++ [(literalText, names)] }
  let v2 : ScopeV :=
    match names.find? (fun nm => containsIdentifier literalText nm) with
    | some nm =>
      { v1 with
        matchCount := v1.matchCount + 1
        matchedStrings := v1.matchedStrings + 1
        matchList := v1.matchList ++
          [{ file := v.filePath, lineNumber := line, identifier := nm,
             stringText := literalText, entireLine := entireLine }] }
    | none => v1
  { v2 with totalStrings := v2.totalStrings + 1 }

mutual

/-- `ast.Walk` driving `scopeVisitor.Visit` (source lines 539-620): the cases
that return `nil` (`FuncDecl`, `BlockStmt`) traverse what they need
themselves and are not re-traversed generically; the others fall through to
the generic walk of their children. -/
def walk (s : ScopeV) : GoNode → ScopeV
  | .ident _ => s
  | .basicLit isString value line =>
    if isString then checkString { s with stringCount := s.stringCount + 1 } value line
    else s
  | .funcDecl name params results body =>
    let s1 := pushScope s
    let s2 := addName s1 name
    let s3 := addNames s2 params
    let s4 := addNames s3 results
    let s5 := walkList s4 body
    popScope s5
  | .blockStmt stmts =>
    popScope (walkList (pushScope s) stmts)
  | .assignStmt isDefine lhs rhs =>
    let s1 := if isDefine then addIdents s lhs else s
    walkList (walkList s1 lhs) rhs
  | .declStmt specs children =>
    walkList (addSpecs s specs) children
  | .fileNode decls => walkList s decls
  | .other children => walkList s children

/-- Sequential walk of a node list (child traversal of `ast.Walk`, and the
explicit statement loop of the `BlockStmt` case). -/
def walkList (s : ScopeV) : List GoNode → ScopeV
  | [] => s
  | n :: rest => walkList (walk s n) rest

end

/-- Names of the `*ast.Ident` operands of an assignment left-hand side. -/
def identNames : List GoNode → List GoStr
  | [] => []
  | .ident nm :: rest => nm :: identNames rest
  | _ :: rest => identNames rest

/-- Names declared by the specs of a `DeclStmt`. -/
def specNames : List DeclSpec → List GoStr
  | [] => []
  | .valueSpec nms :: rest => nms ++ specNames rest
  | .typeSpec nm :: rest => nm :: specNames rest

mutual

/-- Over-approximation of every name `walk` can `addName` inside a node. -/
def binders : GoNode → List GoStr
  | .ident _ => []
  | .basicLit _ _ _ => []
  | .funcDecl name params results body => name :: (params ++ results ++ bindersL body)
  | .blockStmt stmts => bindersL stmts
  | .assignStmt isDefine lhs rhs =>
    (if isDefine then identNames lhs else []) ++ (bindersL lhs ++ bindersL rhs)
  | .declStmt specs children => specNames specs ++ bindersL children
  | .fileNode decls => bindersL decls
  | .other children => bindersL children

/-- `binders` over a node list. -/
def bindersL : List GoNode → List GoStr
  | [] => []
  | n :: rest => binders n ++ bindersL rest

end

mutual

/-- Number of string-literal nodes in a node (each visited exactly once by a
walk that never re-traverses a custom-handled construct). -/
def countStrings : GoNode → Nat
  | .ident _ => 0
  | .basicLit isString _ _ => if isString then 1 else 0
  | .funcDecl _ _ _ body => countL body
  | .blockStmt stmts => countL stmts
  | .assignStmt _ lhs rhs => countL lhs + countL rhs
  | .declStmt _ children => countL children
  | .fileNode decls => countL decls
  | .other children => countL children

/-- `countStrings` over a node list. -/
def countL : List GoNode → Nat
  | [] => 0
  | n :: rest => countStrings n + countL rest

end

/-- The per-node walk invariant: relative to a pre-state whose scope stack is
`pre ++ [top]`, the walk leaves every frame but the top one untouched, only
grows the top frame, and grows it only by names in `bs`; it preserves the
underflow flag; it bumps the observed-literal counter by exactly the number
`k` of string literals in the construct; and it appends exactly `k`
matcher-query events, each of whose visible-name list contains everything
visible in the pre-state and nothing outside the pre-state's visible names
and `bs`. -/
def WalkInv (s s' : ScopeV) (bs : List GoStr) (k : Nat) : Prop :=
  ∀ pre top, s.scopeStack = pre ++ [top] →
    (∃ top', s'.scopeStack = pre ++ [top'] ∧
      (∀ x ∈ top, x ∈ top') ∧ (∀ x ∈ top', x ∈ top ∨ x ∈ bs)) ∧
    s'.underflow = s.underflow ∧
    s'.stringCount = s.stringCount + k ∧
    (∃ es, s'.visitLog = s.visitLog ++ es ∧ es.length = k ∧
      ∀ e ∈ es, (∀ x ∈ inScope s, x ∈ e.2) ∧ (∀ x ∈ e.2, x ∈ inScope s ∨ x ∈ bs))

/-- Fixture: the empty initial visitor. -/
def initV : ScopeV := newScopeVisitor [] []

/-- Fixture for the C5 counterexample: `{ x := _; literal; x := _ }` — the
same name is short-form-declared both before and after the literal's
statement. -/
def cexBlock : GoNode :=
  .blockStmt
    [ .assignStmt true [.ident (gs "x")] []
    , .other [.basicLit true (gs "\x22q\x22") 1]
    , .assignStmt true [.ident (gs "x")] [] ]

/-! ## Helper lemmas: scope-stack primitives -/

theorem updateLast_concat (f : List GoStr → List GoStr) (pre : List (List GoStr)) (top : List GoStr) :
    updateLast f (pre ++ [top]) = pre ++ [f top] := by
  induction pre with
  | nil => rfl
  | cons a pre ih =>
    cases pre with
    | nil => rfl
    | cons b pre' => simpa [updateLast] using ih

theorem pushScope_def (v : ScopeV) :
    pushScope v = { v with scopeStack := v.scopeStack ++ [[]] } := rfl

theorem addName_eq (v : ScopeV) (nm : GoStr) (pre : List (List GoStr)) (top : List GoStr)
    (h : v.scopeStack = pre ++ [top]) :
    addName v nm = { v with scopeStack := pre ++ [frameInsert top nm] } := by
  have hu := updateLast_concat (fun fr => frameInsert fr nm) pre top
  unfold addName
  rw [h]
  cases pre with
  | nil => simpa using hu
  | cons a tl => simpa using hu

theorem popScope_eq (v : ScopeV) (pre : List (List GoStr)) (top : List GoStr)
    (h : v.scopeStack = pre ++ [top]) :
    popScope v = { v with scopeStack := pre } := by
  have hd : (pre ++ [top]).dropLast = pre := by simp
  unfold popScope
  rw [h]
  cases pre with
  | nil => simp
  | cons a tl => simpa using hd

theorem inScope_eq (v : ScopeV) (pre : List (List GoStr)) (top : List GoStr)
    (h : v.scopeStack = pre ++ [top]) :
    inScope v = pre.flatten ++ top := by
  simp [inScope, h]

theorem mem_frameInsert_self (fr : List GoStr) (nm : GoStr) : nm ∈ frameInsert fr nm := by
  unfold frameInsert
  by_cases h : nm ∈ fr <;> simp [h]

theorem mem_frameInsert_of_mem (fr : List GoStr) (nm x : GoStr) (h : x ∈ fr) :
    x ∈ frameInsert fr nm := by
  unfold frameInsert
  by_cases h' : nm ∈ fr <;> simp [h', h]

theorem mem_frameInsert_elim (fr : List GoStr) (nm x : GoStr) (h : x ∈ frameInsert fr nm) :
    x ∈ fr ∨ x = nm := by
  unfold frameInsert at h
  by_cases h' : nm ∈ fr <;> simp [h'] at h <;> tauto

/-! ## Helper lemmas: checkString field effects -/

theorem checkString_scopeStack (v : ScopeV) (a : GoStr) (l : Nat) :
    (checkString v a l).scopeStack = v.scopeStack := by
  unfold checkString
  cases hf : (inScope v).find? (fun nm => containsIdentifier (trimQuotes a) nm) <;> simp [hf]

theorem checkString_underflow (v : ScopeV) (a : GoStr) (l : Nat) :
    (checkString v a l).underflow = v.underflow := by
  unfold checkString
  cases hf : (inScope v).find? (fun nm => containsIdentifier (trimQuotes a) nm) <;> simp [hf]

theorem checkString_stringCount (v : ScopeV) (a : GoStr) (l : Nat) :
    (checkString v a l).stringCount = v.stringCount := by
  unfold checkString
  cases hf : (inScope v).find? (fun nm => containsIdentifier (trimQuotes a) nm) <;> simp [hf]

theorem checkString_visitLog (v : ScopeV) (a : GoStr) (l : Nat) :
    (checkString v a l).visitLog = v.visitLog ++ [(trimQuotes a, inScope v)] := by
  unfold checkString
  cases hf : (inScope v).find? (fun nm => containsIdentifier (trimQuotes a) nm) <;> simp [hf]

/-! ## Helper lemmas: WalkInv algebra -/

theorem WalkInv.rfl (s : ScopeV) (bs : List GoStr) : WalkInv s s bs 0 := by
  intro pre top h
  refine ⟨⟨top, h, fun x hx => hx, fun x hx => Or.inl hx⟩, Eq.refl _, by simp, ⟨[], by simp⟩⟩

theorem WalkInv.inScope_mono (s s' : ScopeV) (bs : List GoStr) (k : Nat)
    (hinv : WalkInv s s' bs k) (pre : List (List GoStr)) (top : List GoStr)
    (h : s.scopeStack = pre ++ [top]) :
    (∀ x ∈ inScope s, x ∈ inScope s') ∧ (∀ x ∈ inScope s', x ∈ inScope s ∨ x ∈ bs) := by
  obtain ⟨⟨top', hs', hsub, hbnd⟩, -, -, -⟩ := hinv pre top h
  rw [inScope_eq s pre top h, inScope_eq s' pre top' hs']
  constructor
  · intro x hx
    rcases List.mem_append.mp hx with hx | hx
    · exact List.mem_append.mpr (Or.inl hx)
    · exact List.mem_append.mpr (Or.inr (hsub x hx))
  · intro x hx
    rcases List.mem_append.mp hx with hx | hx
    · exact Or.inl (List.mem_append.mpr (Or.inl hx))
    · rcases hbnd x hx with hx | hx
      · exact Or.inl (List.mem_append.mpr (Or.inr hx))
      · exact Or.inr hx

theorem WalkInv.trans (s1 s2 s3 : ScopeV) (bs1 bs2 : List GoStr) (k1 k2 : Nat)
    (h12 : WalkInv s1 s2 bs1 k1) (h23 : WalkInv s2 s3 bs2 k2) :
    WalkInv s1 s3 (bs1 ++ bs2) (k1 + k2) := by
  intro pre top h
  obtain ⟨⟨top', hs2, hsub, hbnd⟩, hund, hcnt, ⟨es1, hlog1, hlen1, hev1⟩⟩ := h12 pre top h
  obtain ⟨⟨top'', hs3, hsub', hbnd'⟩, hund', hcnt', ⟨es2, hlog2, hlen2, hev2⟩⟩ := h23 pre top' hs2
  have hmono := WalkInv.inScope_mono s1 s2 bs1 k1 h12 pre top h
  refine ⟨⟨top'', hs3, ?_, ?_⟩, hund'.trans hund, by omega, ⟨es1 ++ es2, ?_, ?_, ?_⟩⟩
  · exact fun x hx => hsub' x (hsub x hx)
  · intro x hx
    rcases hbnd' x hx with hx | hx
    · rcases hbnd x hx with hx | hx
      · exact Or.inl hx
      · exact Or.inr (List.mem_append.mpr (Or.inl hx))
    · exact Or.inr (List.mem_append.mpr (Or.inr hx))
  · rw [hlog2, hlog1, List.append_assoc]
  · simp [hlen1, hlen2]
  · intro e he
    rcases List.mem_append.mp he with he | he
    · obtain ⟨h1, h2⟩ := hev1 e he
      exact ⟨h1, fun x hx => (h2 x hx).imp id (fun hb => List.mem_append.mpr (Or.inl hb))⟩
    · obtain ⟨h1, h2⟩ := hev2 e he
      refine ⟨fun x hx => h1 x (hmono.1 x hx), fun x hx => ?_⟩
      rcases h2 x hx with hx | hx
      · rcases hmono.2 x hx with hx | hx
        · exact Or.inl hx
        · exact Or.inr (List.mem_append.mpr (Or.inl hx))
      · exact Or.inr (List.mem_append.mpr (Or.inr hx))

theorem WalkInv.mono (s s' : ScopeV) (bs bs' : List GoStr) (k k' : Nat)
    (hinv : WalkInv s s' bs k) (hbs : ∀ x ∈ bs, x ∈ bs') (hk : k = k') :
    WalkInv s s' bs' k' := by
  subst hk
  intro pre top h
  obtain ⟨⟨top', hs', hsub, hbnd⟩, hund, hcnt, ⟨es, hlog, hlen, hev⟩⟩ := hinv pre top h
  refine ⟨⟨top', hs', hsub, fun x hx => (hbnd x hx).imp id (hbs x)⟩, hund, hcnt,
    ⟨es, hlog, hlen, fun e he => ⟨(hev e he).1, fun x hx => ((hev e he).2 x hx).imp id (hbs x)⟩⟩⟩

/-! ## Helper lemmas: WalkInv for the primitive steps -/

theorem inScope_pushScope (s : ScopeV) : inScope (pushScope s) = inScope s := by
  simp [inScope, pushScope]

theorem walkInv_addName (s : ScopeV) (nm : GoStr) (bs : List GoStr) (hmem : nm ∈ bs) :
    WalkInv s (addName s nm) bs 0 := by
  intro pre top h
  rw [addName_eq s nm pre top h]
  refine ⟨⟨frameInsert top nm, Eq.refl _, fun x hx => mem_frameInsert_of_mem top nm x hx,
    fun x hx => ?_⟩, Eq.refl _, by simp, ⟨[], by simp⟩⟩
  rcases mem_frameInsert_elim top nm x hx with hx | hx
  · exact Or.inl hx
  · exact Or.inr (hx ▸ hmem)

theorem walkInv_addNames (s : ScopeV) (l : List GoStr) (bs : List GoStr)
    (hmem : ∀ x ∈ l, x ∈ bs) : WalkInv s (addNames s l) bs 0 := by
  induction l generalizing s with
  | nil => exact WalkInv.rfl s bs
  | cons nm rest ih =>
    have h1 := walkInv_addName s nm bs (hmem nm (by simp))
    have h2 := ih (addName s nm) (fun x hx => hmem x (by simp [hx]))
    have h3 := WalkInv.trans _ _ _ _ _ _ _ h1 h2
    exact WalkInv.mono _ _ _ _ _ _ h3 (fun x hx => by rcases List.mem_append.mp hx with hx | hx <;> exact hx) (by omega)

theorem addNames_append (s : ScopeV) (l1 l2 : List GoStr) :
    addNames s (l1 ++ l2) = addNames (addNames s l1) l2 := by
  induction l1 generalizing s with
  | nil => rfl
  | cons nm rest ih => simp [addNames, ih]

theorem addIdents_eq_addNames (l : List GoNode) (s : ScopeV) :
    addIdents s l = addNames s (identNames l) := by
  induction l generalizing s with
  | nil => rfl
  | cons n rest ih => cases n <;> simp [addIdents, identNames, addNames, ih]

theorem addSpecs_eq_addNames (l : List DeclSpec) (s : ScopeV) :
    addSpecs s l = addNames s (specNames l) := by
  induction l generalizing s with
  | nil => rfl
  | cons sp rest ih => cases sp <;> simp [addSpecs, specNames, addNames, addNames_append, ih]

theorem walkInv_basicLitStr (s : ScopeV) (value : GoStr) (line : Nat) (bs : List GoStr) :
    WalkInv s (walk s (.basicLit true value line)) bs 1 := by
  intro pre top h
  have hw : walk s (.basicLit true value line)
      = checkString { s with stringCount := s.stringCount + 1 } value line := by
    simp [walk]
  rw [hw]
  have hsc : ({ s with stringCount := s.stringCount + 1 } : ScopeV).scopeStack = pre ++ [top] := h
  have hin : inScope { s with stringCount := s.stringCount + 1 } = inScope s := by
    simp [inScope]
  refine ⟨⟨top, ?_, fun x hx => hx, fun x hx => Or.inl hx⟩, ?_, ?_, ?_⟩
  · rw [checkString_scopeStack]; exact hsc
  · rw [checkString_underflow]
  · rw [checkString_stringCount]
  · refine ⟨[(trimQuotes value, inScope s)], ?_, by simp, ?_⟩
    · rw [checkString_visitLog, hin]
    · intro e he
      simp only [List.mem_singleton] at he
      subst he
      exact ⟨fun x hx => hx, fun x hx => Or.inl hx⟩

theorem walkInv_pushPop (s s2 : ScopeV) (bs : List GoStr) (k : Nat)
    (hinv : WalkInv (pushScope s) s2 bs k) : WalkInv s (popScope s2) bs k := by
  intro pre top h
  have hp : (pushScope s).scopeStack = (pre ++ [top]) ++ [([] : List GoStr)] := by
    simp [pushScope, h]
  obtain ⟨⟨top', hs2, -, -⟩, hund, hcnt, ⟨es, hlog, hlen, hev⟩⟩ := hinv (pre ++ [top]) [] hp
  have hpop := popScope_eq s2 (pre ++ [top]) top' hs2
  rw [hpop]
  have hinp : inScope (pushScope s) = inScope s := inScope_pushScope s
  refine ⟨⟨top, Eq.refl _, fun x hx => hx, fun x hx => Or.inl hx⟩, ?_, ?_, ?_⟩
  · show s2.underflow = s.underflow
    rw [hund]; rfl
  · show s2.stringCount = s.stringCount + k
    rw [hcnt]; rfl
  · refine ⟨es, ?_, hlen, ?_⟩
    · show s2.visitLog = s.visitLog ++ es
      rw [hlog]; rfl
    · intro e he
      obtain ⟨h1, h2⟩ := hev e he
      rw [hinp] at h1 h2
      exact ⟨h1, h2⟩

/-! ## The master walk invariant -/

theorem walk_inv : ∀ (s : ScopeV) (n : GoNode),
    WalkInv s (walk s n) (binders n) (countStrings n) := by
  refine walk.induct
    (fun s n => WalkInv s (walk s n) (binders n) (countStrings n))
    (fun s ns => WalkInv s (walkList s ns) (bindersL ns) (countL ns))
    ?_ ?_ ?_ ?_ ?_ ?_ ?_ ?_ ?_ ?_ ?_
  · intro s name
    simpa [walk, binders, countStrings] using WalkInv.rfl s []
  · intro s value line
    simpa [binders, countStrings] using walkInv_basicLitStr s value line []
  · intro s isString value line hstr
    have hb : isString = false := Bool.not_eq_true _ ▸ Bool.eq_false_iff.mpr hstr
    subst hb
    simpa [walk, binders, countStrings] using WalkInv.rfl s []
  · intro s name params results body s1 s2 s3 s4 ih
    have h1 : WalkInv s1 s2 [name] 0 := walkInv_addName s1 name [name] (by simp)
    have h2 : WalkInv s2 s3 params 0 := walkInv_addNames s2 params params (fun x hx => hx)
    have h3 : WalkInv s3 s4 results 0 := walkInv_addNames s3 results results (fun x hx => hx)
    have hchain := WalkInv.trans _ _ _ _ _ _ _ h1
      (WalkInv.trans _ _ _ _ _ _ _ h2 (WalkInv.trans _ _ _ _ _ _ _ h3 ih))
    have hchain' : WalkInv s1 (walkList s4 body)
        (name :: (params ++ results ++ bindersL body)) (countL body) := by
      refine WalkInv.mono _ _ _ _ _ _ hchain (fun x hx => ?_) (by omega)
      simp only [List.mem_append, List.mem_cons, List.mem_singleton] at hx ⊢
      tauto
    have hfin := walkInv_pushPop s (walkList s4 body) _ _ hchain'
    simpa [walk, binders, countStrings] using hfin
  · intro s stmts ih
    have hfin := walkInv_pushPop s (walkList (pushScope s) stmts) _ _ ih
    simpa [walk, binders, countStrings] using hfin
  · intro s isDefine lhs rhs s1 ih1 ih2
    have h0 : WalkInv s s1 (if isDefine = true then identNames lhs else []) 0 := by
      show WalkInv s (if isDefine = true then addIdents s lhs else s) _ 0
      cases isDefine with
      | false => simpa using WalkInv.rfl s []
      | true =>
        simp only [if_pos rfl]
        rw [addIdents_eq_addNames]
        exact walkInv_addNames s (identNames lhs) (identNames lhs) (fun x hx => hx)
    have hchain := WalkInv.trans _ _ _ _ _ _ _ h0 (WalkInv.trans _ _ _ _ _ _ _ ih1 ih2)
    have hfin : WalkInv s (walkList (walkList s1 lhs) rhs)
        ((if isDefine = true then identNames lhs else []) ++ (bindersL lhs ++ bindersL rhs))
        (countL lhs + countL rhs) := by
      refine WalkInv.mono _ _ _ _ _ _ hchain (fun x hx => ?_) (by omega)
      simpa using hx
    simpa [walk, binders, countStrings] using hfin
  · intro s specs children ih
    have h0 : WalkInv s (addSpecs s specs) (specNames specs) 0 := by
      rw [addSpecs_eq_addNames]
      exact walkInv_addNames s (specNames specs) (specNames specs) (fun x hx => hx)
    have hchain := WalkInv.trans _ _ _ _ _ _ _ h0 ih
    simpa [walk, binders, countStrings] using hchain
  · intro s decls ih
    simpa [walk, binders, countStrings] using ih
  · intro s children ih
    simpa [walk, binders, countStrings] using ih
  · intro s
    simpa [walkList, bindersL, countL] using WalkInv.rfl s []
  · intro s n rest ih1 ih2
    have hchain := WalkInv.trans _ _ _ _ _ _ _ ih1 ih2
    simpa [walkList, bindersL, countL] using hchain

theorem walkList_inv (s : ScopeV) (ns : List GoNode) :
    WalkInv s (walkList s ns) (bindersL ns) (countL ns) := by
  simpa [walk, binders, countStrings] using walk_inv s (.other ns)

/-! ## Helper lemmas: the matcher scan -/

theorem strIndex_prefix_of_some (pat : GoStr) :
    ∀ (l : GoStr) (i : Nat), strIndex l pat = some i → pat <+: l.drop i := by
  intro l
  induction l with
  | nil =>
    intro i h
    unfold strIndex at h
    by_cases hp : pat.isPrefixOf ([] : GoStr)
    · simp only [hp, if_true, Option.some.injEq] at h
      subst h
      exact List.isPrefixOf_iff_prefix.mp hp
    · simp [hp] at h
  | cons hd tl ih =>
    intro i h
    unfold strIndex at h
    by_cases hp : pat.isPrefixOf (hd :: tl)
    · simp only [hp, if_true, Option.some.injEq] at h
      subst h
      exact List.isPrefixOf_iff_prefix.mp hp
    · rw [if_neg hp] at h
      have h' : (strIndex tl pat).map (· + 1) = some i := h
      cases hj : strIndex tl pat with
      | none => rw [hj] at h'; simp at h'
      | some j =>
        rw [hj] at h'
        simp only [Option.map_some', Option.some.injEq] at h'
        subst h'
        simpa using ih j hj

theorem strIndex_some_le (l pat : GoStr) (i : Nat) (h : strIndex l pat = some i)
    (hpat : pat ≠ []) : i + pat.length ≤ l.length := by
  have hpre := strIndex_prefix_of_some pat l i h
  have hlen := hpre.length_le
  have hdl : (l.drop i).length = l.length - i := List.length_drop i l
  have hpos : 1 ≤ pat.length := List.length_pos.mpr hpat
  omega

theorem containsIdAux_isSome (L id : GoStr) (hid : id ≠ []) :
    ∀ fuel ss, L.length + 1 ≤ fuel + ss → ss ≤ L.length →
      (containsIdAux L id fuel ss).isSome = true := by
  intro fuel
  induction fuel with
  | zero => intro ss h1 h2; omega
  | succ fuel ih =>
    intro ss h1 h2
    have hlen : 1 ≤ id.length := List.length_pos.mpr hid
    simp only [containsIdAux]
    split
    · simp
    · rename_i idx hI
      have hb := strIndex_some_le (L.drop ss) id idx hI hid
      have hdl : (L.drop ss).length = L.length - ss := List.length_drop ss L
      rw [hdl] at hb
      split
      · apply ih <;> omega
      · split
        · apply ih <;> omega
        · split
          · apply ih <;> omega
          · simp

theorem containsIdAux_sound (L id : GoStr) :
    ∀ fuel ss, containsIdAux L id fuel ss = some true →
      ∃ pos, acceptedB L id pos = true := by
  intro fuel
  induction fuel with
  | zero => intro ss h; simp [containsIdAux] at h
  | succ fuel ih =>
    intro ss h
    simp only [containsIdAux] at h
    split at h
    · simp at h
    · rename_i idx hI
      split at h
      · exact ih _ h
      · split at h
        · exact ih _ h
        · split at h
          · exact ih _ h
          · rename_i hc1 hc2 hc3
            refine ⟨ss + idx, ?_⟩
            have hpre : id <+: L.drop (ss + idx) := by
              have hdd := strIndex_prefix_of_some id (L.drop ss) idx hI
              rwa [List.drop_drop] at hdd
            have hc1' : ¬(0 < ss + idx ∧
                (L.getD (ss + idx - 1) 0 = 92 ∨ L.getD (ss + idx - 1) 0 = 37)) := by
              simpa using hc1
            have hc2' : ¬(0 < ss + idx ∧ isBoundary (L.getD (ss + idx - 1) 0) = false) := by
              simpa using hc2
            have hc3' : ¬(ss + idx + id.length < L.length ∧
                isBoundary (L.getD (ss + idx + id.length) 0) = false) := by
              simpa using hc3
            unfold acceptedB
            rw [Bool.and_eq_true, Bool.and_eq_true]
            refine ⟨⟨List.isPrefixOf_iff_prefix.mpr hpre, ?_⟩, ?_⟩
            · rw [Bool.or_eq_true]
              by_cases hpos : ss + idx = 0
              · exact Or.inl (beq_iff_eq.mpr hpos)
              · have h0 : 0 < ss + idx := Nat.pos_of_ne_zero hpos
                right
                have hA : ¬(L.getD (ss + idx - 1) 0 = 92 ∨ L.getD (ss + idx - 1) 0 = 37) :=
                  fun hcon => hc1' ⟨h0, hcon⟩
                push_neg at hA
                have hB : isBoundary (L.getD (ss + idx - 1) 0) = true := by
                  cases hIb : isBoundary (L.getD (ss + idx - 1) 0) with
                  | true => rfl
                  | false => exact absurd ⟨h0, hIb⟩ hc2'
                rw [Bool.and_eq_true, Bool.and_eq_true]
                refine ⟨⟨?_, ?_⟩, hB⟩
                · rw [Bool.not_eq_true']
                  exact beq_eq_false_iff_ne.mpr hA.1
                · rw [Bool.not_eq_true']
                  exact beq_eq_false_iff_ne.mpr hA.2
            · rw [Bool.or_eq_true]
              by_cases hend : ss + idx + id.length < L.length
              · refine Or.inr ?_
                cases hIb : isBoundary (L.getD (ss + idx + id.length) 0) with
                | true => rfl
                | false => exact absurd ⟨hend, hIb⟩ hc3'
              · refine Or.inl ?_
                rw [Bool.not_eq_true']
                exact decide_eq_false hend

/-! ## Claim theorems: the matcher -/

/-- Claim C7 (confirmed): the empty name never occurs in any literal —
`containsIdentifier L "" = false` for every literal text `L`. -/
theorem containsIdentifier_empty_name : ∀ L : GoStr, containsIdentifier L [] = false :=
  fun _ => rfl

/-- Claim C10 (confirmed): `containsIdentifier` terminates on every input:
the fuel-indexed scan, given fuel `|literal| + 1`, never exhausts its fuel,
because every loop iteration either returns or strictly advances
`searchStart` while `searchStart` stays within the literal. -/
theorem containsIdentifier_terminates :
    ∀ L id : GoStr, (containsIdentifierOpt L id).isSome = true := by
  intro L id
  unfold containsIdentifierOpt
  by_cases hid : id.isEmpty
  · simp [hid]
  · rw [if_neg hid]
    have hne : id ≠ [] := by simpa [List.isEmpty_iff] using hid
    exact containsIdAux_isSome L id hne (L.length + 1) 0 (by omega) (by omega)

/-- Claim C1 (corrected, sound direction): whenever `containsIdentifier`
returns true there is an accepted position — a position where the name
occurs, any preceding character is a boundary other than `\\`/`%`, and any
following character is a boundary.  The converse of the original claim is
false: see the counterexample, where the scan's skip past a rejected
occurrence jumps over an overlapping accepted one. -/
theorem containsIdentifier_sound :
    ∀ L id : GoStr, id ≠ [] → containsIdentifier L id = true →
      ∃ pos, acceptedB L id pos = true := by
  intro L id hid h
  unfold containsIdentifier containsIdentifierOpt at h
  rw [if_neg (by simpa [List.isEmpty_iff] using hid)] at h
  cases ho : containsIdAux L id (L.length + 1) 0 with
  | none => rw [ho] at h; simp at h
  | some b =>
    rw [ho] at h
    simp only [Option.getD_some] at h
    subst h
    exact containsIdAux_sound L id (L.length + 1) 0 ho

/-- Witness for `containsIdentifier_sound` at `occurs("foo-bar", "bar")`. -/
theorem containsIdentifier_sound_witness :
    (gs "bar" ≠ []) ∧ containsIdentifier (gs "foo-bar") (gs "bar") = true ∧
      ∃ pos, acceptedB (gs "foo-bar") (gs "bar") pos = true :=
  ⟨by decide, by decide, containsIdentifier_sound (gs "foo-bar") (gs "bar") (by decide) (by decide)⟩

/-- Counterexample to claim C1 as stated: in literal `"xa_a_a"` with name
`"a_a"`, position 3 is accepted (preceded by the boundary `_`, at the
literal's end), yet `containsIdentifier` returns false: the occurrence at
position 1 is rejected for its preceding `x` and the scan resumes at
position 4, skipping the accepted overlapping occurrence at position 3.  So
"returns true iff some position is accepted" fails in the "if" direction. -/
theorem containsIdentifier_scan_gap :
    containsIdentifier (gs "xa_a_a") (gs "a_a") = false ∧
      acceptedB (gs "xa_a_a") (gs "a_a") 3 = true ∧
      ∃ pos, acceptedB (gs "xa_a_a") (gs "a_a") pos = true :=
  ⟨by decide, by decide, ⟨3, by decide⟩⟩

/-- Claim C8 (confirmed): `isBoundary` is true exactly on whitespace and on
punctuation/symbol characters other than `%` (37) and `\\` (92); letters,
digits, `%` and `\\` are never boundaries. -/
theorem isBoundary_characterization :
    ∀ c : Nat,
      (isBoundary c =
        (isSpaceGo c || ((isPunctGo c || isSymbolGo c) && !(c == 37) && !(c == 92)))) ∧
      ((isLetterGo c || isDigitGo c) = true ∨ c = 37 ∨ c = 92 → isBoundary c = false) := by
  have hbounded : ∀ c < 256, (isLetterGo c || isDigitGo c) = true → isBoundary c = false := by
    decide
  intro c
  constructor
  · cases h1 : isSpaceGo c <;> cases h2 : isPunctGo c <;> cases h3 : isSymbolGo c <;>
      cases h4 : c == 37 <;> cases h5 : c == 92 <;>
      simp [isBoundary, h1, h2, h3, h4, h5]
  · intro h
    rcases h with h | h | h
    · have hlt : c < 256 := by
        rcases (show isLetterGo c = true ∨ isDigitGo c = true by simpa using h) with h' | h'
        · simp only [isLetterGo, Bool.or_eq_true, Bool.and_eq_true, beq_iff_eq,
            decide_eq_true_eq] at h'
          omega
        · simp only [isDigitGo, Bool.and_eq_true, decide_eq_true_eq] at h'
          omega
      exact hbounded c hlt h
    · subst h; decide
    · subst h; decide

/-- Witness for `isBoundary_characterization`: the letter `A` (65) is not a
boundary. -/
theorem isBoundary_characterization_witness : isBoundary 65 = false :=
  (isBoundary_characterization 65).2 (Or.inl (by decide))

/-! ## Helper lemmas: checkString branches and find? -/

theorem find?_some_split (p : GoStr → Bool) (l : List GoStr) (a : GoStr)
    (h : l.find? p = some a) :
    ∃ l1 l2, l = l1 ++ a :: l2 ∧ p a = true ∧ ∀ x ∈ l1, p x = false := by
  induction l with
  | nil => simp [List.find?] at h
  | cons hd tl ih =>
    by_cases hp : p hd
    · rw [List.find?_cons_of_pos _ hp] at h
      simp only [Option.some.injEq] at h
      subst h
      exact ⟨[], tl, by simp, hp, by simp⟩
    · rw [List.find?_cons_of_neg _ hp] at h
      obtain ⟨l1, l2, hl, hpa, hl1⟩ := ih h
      refine ⟨hd :: l1, l2, by simp [hl], hpa, ?_⟩
      intro x hx
      rcases List.mem_cons.mp hx with hx | hx
      · subst hx; exact Bool.eq_false_iff.mpr hp
      · exact hl1 x hx

theorem walk_basicLit_true (s : ScopeV) (value : GoStr) (line : Nat) :
    walk s (.basicLit true value line)
      = checkString { s with stringCount := s.stringCount + 1 } value line := by
  simp [walk]

theorem checkString_none_eq (v : ScopeV) (a : GoStr) (l : Nat)
    (hf : (inScope v).find? (fun nm => containsIdentifier (trimQuotes a) nm) = none) :
    checkString v a l =
      { v with visitLog := v.visitLog ++ [(trimQuotes a, inScope v)],
               totalStrings := v.totalStrings + 1 } := by
  simp only [checkString, hf]

theorem checkString_some_eq (v : ScopeV) (a : GoStr) (l : Nat) (nm : GoStr)
    (hf : (inScope v).find? (fun nm => containsIdentifier (trimQuotes a) nm) = some nm) :
    checkString v a l =
      { v with visitLog := v.visitLog ++ [(trimQuotes a, inScope v)],
               matchCount := v.matchCount + 1,
               matchedStrings := v.matchedStrings + 1,
               matchList := v.matchList ++
                 [{ file := v.filePath, lineNumber := l, identifier := nm,
                    stringText := trimQuotes a,
                    entireLine :=
                      if 1 ≤ l && l - 1 < v.srcLines.length then v.srcLines.getD (l - 1) []
                      else [] }],
               totalStrings := v.totalStrings + 1 } := by
  simp only [checkString, hf]

/-! ## Claim theorems: recorder and scope stack -/

/-- Claim C2 (confirmed): visiting one string literal bumps the per-file
observed counter and the global observed counter by exactly one; when no
visible name occurs in the (trimmed) literal text the matched counters and
the record list are untouched; when some visible name occurs, the matched
counters are bumped by exactly one and exactly one MatchRecord is appended,
for the first matching name in the iteration order of the visible names. -/
theorem checkString_counters_per_literal :
    ∀ (s : ScopeV) (value : GoStr) (line : Nat),
      (walk s (.basicLit true value line)).stringCount = s.stringCount + 1 ∧
      (walk s (.basicLit true value line)).totalStrings = s.totalStrings + 1 ∧
      ((∀ nm ∈ inScope s, containsIdentifier (trimQuotes value) nm = false) →
        (walk s (.basicLit true value line)).matchCount = s.matchCount ∧
        (walk s (.basicLit true value line)).matchedStrings = s.matchedStrings ∧
        (walk s (.basicLit true value line)).matchList = s.matchList) ∧
      (∀ nm0 ∈ inScope s, containsIdentifier (trimQuotes value) nm0 = true →
        (walk s (.basicLit true value line)).matchCount = s.matchCount + 1 ∧
        (walk s (.basicLit true value line)).matchedStrings = s.matchedStrings + 1 ∧
        ∃ l1 l2 nm el, inScope s = l1 ++ nm :: l2 ∧
          containsIdentifier (trimQuotes value) nm = true ∧
          (∀ x ∈ l1, containsIdentifier (trimQuotes value) x = false) ∧
          (walk s (.basicLit true value line)).matchList = s.matchList ++
            [{ file := s.filePath, lineNumber := line, identifier := nm,
               stringText := trimQuotes value, entireLine := el }]) := by
  intro s value line
  rw [walk_basicLit_true]
  set s1 : ScopeV := { s with stringCount := s.stringCount + 1 } with hs1
  have hin : inScope s1 = inScope s := by simp [inScope, hs1]
  cases hf : (inScope s1).find? (fun nm => containsIdentifier (trimQuotes value) nm) with
  | none =>
    rw [checkString_none_eq s1 value line hf]
    have hall := List.find?_eq_none.mp hf
    refine ⟨by simp [hs1], by simp [hs1], fun _ => by simp [hs1], ?_⟩
    intro nm0 hmem hocc
    exact absurd hocc (by simpa using hall nm0 (hin ▸ hmem))
  | some nm =>
    rw [checkString_some_eq s1 value line nm hf]
    obtain ⟨l1, l2, hl, hpa, hl1⟩ := find?_some_split _ _ _ hf
    rw [hin] at hl
    refine ⟨by simp [hs1], by simp [hs1], ?_, ?_⟩
    · intro hnone
      have hmem : nm ∈ inScope s := by rw [hl]; simp
      exact absurd hpa (by simp [hnone nm hmem])
    · intro nm0 hmem hocc
      refine ⟨by simp [hs1], by simp [hs1],
        l1, l2, nm,
        (if 1 ≤ line && line - 1 < s.srcLines.length then s.srcLines.getD (line - 1) []
          else []), hl, hpa, hl1, ?_⟩
      simp [hs1]

/-- Witness for `checkString_counters_per_literal`: a literal `"name "` with
the single visible name `name` yields one appended record for it. -/
theorem checkString_counters_per_literal_witness :
    (walk (addName initV (gs "name")) (.basicLit true (gs "\x22name \x22") 7)).matchCount
      = (addName initV (gs "name")).matchCount + 1 := by
  have h := checkString_counters_per_literal (addName initV (gs "name")) (gs "\x22name \x22") 7
  exact (h.2.2.2 (gs "name") (by decide) (by decide)).1

/-- Claim C3 (confirmed): `inScope` is the union of all frames, and
shadowing keeps the outer name visible: declaring `x`, pushing a frame,
declaring `x` again leaves `x` visible, and it stays visible after the pop. -/
theorem inScope_union_and_shadowing :
    ∀ (v : ScopeV) (x : GoStr),
      (x ∈ inScope v ↔ ∃ f ∈ v.scopeStack, x ∈ f) ∧
      (v.scopeStack ≠ [] →
        x ∈ inScope (addName (pushScope (addName v x)) x) ∧
        x ∈ inScope (popScope (addName (pushScope (addName v x)) x))) := by
  intro v x
  constructor
  · simp [inScope, List.mem_flatten]
  · intro hne
    rcases (List.eq_nil_or_concat v.scopeStack).resolve_left hne with ⟨pre, top, hstack⟩
    rw [List.concat_eq_append] at hstack
    have h1 := addName_eq v x pre top hstack
    have h2 : (pushScope (addName v x)).scopeStack
        = (pre ++ [frameInsert top x]) ++ [([] : List GoStr)] := by
      rw [h1]; simp [pushScope]
    have h3 := addName_eq (pushScope (addName v x)) x (pre ++ [frameInsert top x]) [] h2
    have h4 := popScope_eq (addName (pushScope (addName v x)) x)
      (pre ++ [frameInsert top x]) (frameInsert [] x) (by rw [h3])
    constructor
    · rw [h3]
      simp only [inScope]
      simp [mem_frameInsert_self]
    · rw [h4]
      simp only [inScope]
      simp [mem_frameInsert_self]

/-- Witness for `inScope_union_and_shadowing` at the initial one-frame
visitor and name `x`. -/
theorem inScope_union_and_shadowing_witness :
    gs "x" ∈ inScope (addName (pushScope (addName initV (gs "x"))) (gs "x")) ∧
    gs "x" ∈ inScope (popScope (addName (pushScope (addName initV (gs "x"))) (gs "x"))) :=
  (inScope_union_and_shadowing initV (gs "x")).2 (by decide)

/-! ## Helper lemmas: membership and non-emptiness through the walk -/

theorem popScope_visitLog (v : ScopeV) : (popScope v).visitLog = v.visitLog := by
  unfold popScope
  cases v.scopeStack <;> rfl

theorem walkList_append (s : ScopeV) (l1 l2 : List GoNode) :
    walkList s (l1 ++ l2) = walkList (walkList s l1) l2 := by
  induction l1 generalizing s with
  | nil => rfl
  | cons n rest ih => simp [walkList, ih]

theorem addName_stack_ne (v : ScopeV) (nm : GoStr) (h : v.scopeStack ≠ []) :
    (addName v nm).scopeStack ≠ [] := by
  rcases (List.eq_nil_or_concat v.scopeStack).resolve_left h with ⟨pre, top, hstack⟩
  rw [List.concat_eq_append] at hstack
  rw [addName_eq v nm pre top hstack]
  simp

theorem mem_inScope_addName (v : ScopeV) (nm : GoStr) (h : v.scopeStack ≠ []) :
    nm ∈ inScope (addName v nm) := by
  rcases (List.eq_nil_or_concat v.scopeStack).resolve_left h with ⟨pre, top, hstack⟩
  rw [List.concat_eq_append] at hstack
  rw [addName_eq v nm pre top hstack]
  simp only [inScope]
  simp [mem_frameInsert_self]

theorem inScope_addName_mono (v : ScopeV) (nm x : GoStr) (h : x ∈ inScope v) :
    x ∈ inScope (addName v nm) := by
  rcases List.eq_nil_or_concat v.scopeStack with hnil | ⟨pre, top, hstack⟩
  · exfalso
    simp [inScope, hnil] at h
  · rw [List.concat_eq_append] at hstack
    rw [addName_eq v nm pre top hstack]
    rw [inScope_eq v pre top hstack] at h
    simp only [inScope]
    rcases List.mem_append.mp h with h | h
    · simp only [List.flatten_append]
      exact List.mem_append.mpr (Or.inl h)
    · simp only [List.flatten_append]
      refine List.mem_append.mpr (Or.inr ?_)
      simpa using mem_frameInsert_of_mem top nm x h

theorem addNames_stack_ne (l : List GoStr) (v : ScopeV) (h : v.scopeStack ≠ []) :
    (addNames v l).scopeStack ≠ [] := by
  induction l generalizing v with
  | nil => exact h
  | cons nm rest ih => exact ih (addName v nm) (addName_stack_ne v nm h)

theorem inScope_addNames_mono (l : List GoStr) (v : ScopeV) (x : GoStr)
    (h : x ∈ inScope v) : x ∈ inScope (addNames v l) := by
  induction l generalizing v with
  | nil => exact h
  | cons nm rest ih => exact ih (addName v nm) (inScope_addName_mono v nm x h)

theorem mem_inScope_addNames (l : List GoStr) (v : ScopeV) (h : v.scopeStack ≠ []) :
    ∀ x ∈ l, x ∈ inScope (addNames v l) := by
  induction l generalizing v with
  | nil => intro x hx; simp at hx
  | cons nm rest ih =>
    intro x hx
    rcases List.mem_cons.mp hx with hx | hx
    · subst hx
      exact inScope_addNames_mono rest (addName v x) x (mem_inScope_addName v x h)
    · exact ih (addName v nm) (addName_stack_ne v nm h) x hx

theorem walkList_stack_ne (s : ScopeV) (ns : List GoNode) (h : s.scopeStack ≠ []) :
    (walkList s ns).scopeStack ≠ [] := by
  rcases (List.eq_nil_or_concat s.scopeStack).resolve_left h with ⟨pre, top, hstack⟩
  rw [List.concat_eq_append] at hstack
  obtain ⟨⟨top', hs', -, -⟩, -, -, -⟩ := walkList_inv s ns pre top hstack
  rw [hs']
  simp

theorem inScope_walkList_mono (s : ScopeV) (ns : List GoNode) (x : GoStr)
    (h : s.scopeStack ≠ []) (hx : x ∈ inScope s) : x ∈ inScope (walkList s ns) := by
  rcases (List.eq_nil_or_concat s.scopeStack).resolve_left h with ⟨pre, top, hstack⟩
  rw [List.concat_eq_append] at hstack
  exact (WalkInv.inScope_mono s (walkList s ns) _ _ (walkList_inv s ns) pre top hstack).1 x hx

theorem checkString_matchList_mem (v : ScopeV) (a : GoStr) (l : Nat) :
    ∀ mi ∈ (checkString v a l).matchList, mi ∈ v.matchList ∨ mi.stringText = trimQuotes a := by
  intro mi hmi
  cases hf : (inScope v).find? (fun nm => containsIdentifier (trimQuotes a) nm) with
  | none =>
    rw [checkString_none_eq v a l hf] at hmi
    exact Or.inl hmi
  | some nm =>
    rw [checkString_some_eq v a l nm hf] at hmi
    simp only at hmi
    rcases List.mem_append.mp hmi with hmi | hmi
    · exact Or.inl hmi
    · right
      simp only [List.mem_singleton] at hmi
      subst hmi
      rfl

/-! ## Helper lemmas: trimQuotes -/

theorem trimLeftQ_cons_q (c : Nat) (l : GoStr) (h : c = 34 ∨ c = 96) :
    trimLeftQ (c :: l) = trimLeftQ l := by
  rcases h with h | h <;> subst h <;> simp [trimLeftQ]

theorem trimLeftQ_no_q (l : GoStr) (h : ∀ d, l.head? = some d → d ≠ 34 ∧ d ≠ 96) :
    trimLeftQ l = l := by
  cases l with
  | nil => rfl
  | cons c rest =>
    obtain ⟨h1, h2⟩ := h c (by simp)
    simp [trimLeftQ, h1, h2]

theorem trimQuotes_delims (q1 q2 : Nat) (mid : GoStr)
    (hq1 : q1 = 34 ∨ q1 = 96) (hq2 : q2 = 34 ∨ q2 = 96)
    (hh : ∀ d, mid.head? = some d → d ≠ 34 ∧ d ≠ 96)
    (hl : ∀ d, mid.getLast? = some d → d ≠ 34 ∧ d ≠ 96) :
    trimQuotes (q1 :: (mid ++ [q2])) = mid := by
  unfold trimQuotes
  rw [trimLeftQ_cons_q q1 (mid ++ [q2]) hq1]
  cases mid with
  | nil => rcases hq2 with h | h <;> subst h <;> rfl
  | cons c rest =>
    have hcr := hh c (by simp)
    rw [trimLeftQ_no_q ((c :: rest) ++ [q2]) (by intro d hd; simp at hd; subst hd; exact hcr)]
    have hrev : ((c :: rest) ++ [q2]).reverse = q2 :: (c :: rest).reverse := by simp
    rw [hrev]
    rw [trimLeftQ_cons_q q2 (c :: rest).reverse hq2]
    rw [trimLeftQ_no_q (c :: rest).reverse ?hno]
    · exact List.reverse_reverse _
    case hno =>
      intro d hd
      rw [List.head?_reverse] at hd
      exact hl d hd

/-! ## Claim theorems: the walker -/

/-- Claim C6 (confirmed): starting from any state with a non-empty scope
stack and a clear underflow flag, a walk never sets the flag (so `popScope`
and `addName` never run on an empty stack and their slicing/indexing stays
in bounds) and restores the stack to its original depth, leaving it
non-empty: pushes and pops are balanced. -/
theorem walk_balanced_no_underflow :
    ∀ (s : ScopeV) (n : GoNode), s.scopeStack ≠ [] → s.underflow = false →
      (walk s n).underflow = false ∧
      (walk s n).scopeStack.length = s.scopeStack.length ∧
      (walk s n).scopeStack ≠ [] := by
  intro s n hne hund
  rcases (List.eq_nil_or_concat s.scopeStack).resolve_left hne with ⟨pre, top, hstack⟩
  rw [List.concat_eq_append] at hstack
  obtain ⟨⟨top', hs', -, -⟩, hu, -, -⟩ := walk_inv s n pre top hstack
  refine ⟨hu.trans hund, ?_, ?_⟩
  · rw [hs', hstack]; simp
  · rw [hs']; simp

/-- Witness for `walk_balanced_no_underflow` on a nested-block walk from the
initial one-frame visitor. -/
theorem walk_balanced_no_underflow_witness :
    (walk initV (.blockStmt [.blockStmt []])).underflow = false ∧
    (walk initV (.blockStmt [.blockStmt []])).scopeStack.length = initV.scopeStack.length ∧
    (walk initV (.blockStmt [.blockStmt []])).scopeStack ≠ [] :=
  walk_balanced_no_underflow initV (.blockStmt [.blockStmt []]) (by decide) (by decide)

/-- Claim C4 (confirmed): walking a function declaration pushes a fresh
frame, declares the function name, all parameter names and all named result
names into it, walks the body once, and pops: the scope stack is restored
exactly, the observed-literal counter grows by exactly the number of string
literals in the body (each counted once — no generic re-traversal), and
every literal visited in the body is tested against a visible-name list
containing the function name, every parameter and every named result. -/
theorem funcDecl_scope_declarations_and_count :
    ∀ (s : ScopeV) (name : GoStr) (params results : List GoStr) (b : GoNode),
      (walk s (.funcDecl name params results [b])).scopeStack = s.scopeStack ∧
      (walk s (.funcDecl name params results [b])).stringCount
        = s.stringCount + countStrings b ∧
      ∃ es, (walk s (.funcDecl name params results [b])).visitLog = s.visitLog ++ es ∧
        es.length = countStrings b ∧
        ∀ e ∈ es, name ∈ e.2 ∧ (∀ p ∈ params, p ∈ e.2) ∧ (∀ r ∈ results, r ∈ e.2) := by
  intro s name params results b
  have hw : walk s (.funcDecl name params results [b])
      = popScope (walkList (addNames (addNames (addName (pushScope s) name) params) results)
          [b]) := by
    simp [walk]
  set s1 : ScopeV := pushScope s with hs1
  set s2 : ScopeV := addName s1 name with hs2
  set s3 : ScopeV := addNames s2 params with hs3
  set s4 : ScopeV := addNames s3 results with hs4
  have hps : s1.scopeStack = s.scopeStack ++ [([] : List GoStr)] := rfl
  have hs1ne : s1.scopeStack ≠ [] := by rw [hps]; simp
  have hs2ne : s2.scopeStack ≠ [] := addName_stack_ne s1 name hs1ne
  have hs3ne : s3.scopeStack ≠ [] := addNames_stack_ne params s2 hs2ne
  have hA : WalkInv s1 s4 (name :: (params ++ results)) 0 := by
    have h1 : WalkInv s1 s2 (name :: (params ++ results)) 0 :=
      walkInv_addName s1 name _ (by simp)
    have h2 : WalkInv s2 s3 (name :: (params ++ results)) 0 :=
      walkInv_addNames s2 params _ (fun x hx => by simp [hx])
    have h3 : WalkInv s3 s4 (name :: (params ++ results)) 0 :=
      walkInv_addNames s3 results _ (fun x hx => by simp [hx])
    have h12 := WalkInv.trans _ _ _ _ _ _ _ h1 (WalkInv.trans _ _ _ _ _ _ _ h2 h3)
    refine WalkInv.mono _ _ _ _ _ _ h12 (fun x hx => ?_) (by omega)
    simp only [List.mem_append, List.mem_cons] at hx ⊢
    tauto
  obtain ⟨⟨f4, hs4stack, -, -⟩, -, hcnt4, ⟨es0, hlog4, hlen0, -⟩⟩ :=
    hA s.scopeStack [] hps
  have hes0 : es0 = [] := List.length_eq_zero.mp hlen0
  subst hes0
  have hname : name ∈ inScope s4 := by
    refine inScope_addNames_mono results s3 name
      (inScope_addNames_mono params s2 name (mem_inScope_addName s1 name hs1ne))
  have hparams : ∀ p ∈ params, p ∈ inScope s4 := by
    intro p hp
    exact inScope_addNames_mono results s3 p (mem_inScope_addNames params s2 hs2ne p hp)
  have hresults : ∀ r ∈ results, r ∈ inScope s4 := by
    intro r hr
    exact mem_inScope_addNames results s3 (addNames_stack_ne params s2 hs2ne) r hr
  obtain ⟨⟨f5, hs5stack, -, -⟩, -, hcnt5, ⟨es, hlog5, hlen5, hev5⟩⟩ :=
    walkList_inv s4 [b] s.scopeStack f4 hs4stack
  have hpop := popScope_eq (walkList s4 [b]) s.scopeStack f5 hs5stack
  rw [hw, hpop]
  refine ⟨rfl, ?_, es, ?_, ?_, ?_⟩
  · show (walkList s4 [b]).stringCount = s.stringCount + countStrings b
    rw [hcnt5, hcnt4]
    show s.stringCount + 0 + countL [b] = s.stringCount + countStrings b
    simp [countL]
  · show (walkList s4 [b]).visitLog = s.visitLog ++ es
    rw [hlog5, hlog4]
    show s.visitLog ++ [] ++ es = s.visitLog ++ es
    simp
  · rw [hlen5]; simp [countL]
  · intro e he
    obtain ⟨hsub, -⟩ := hev5 e he
    exact ⟨hsub name hname, fun p hp => hsub p (hparams p hp),
      fun r hr => hsub r (hresults r hr)⟩

/-- Witness for `funcDecl_scope_declarations_and_count`: a function `f` with
parameter `name` whose body holds one string literal. -/
theorem funcDecl_scope_declarations_and_count_witness :
    (walk initV (.funcDecl (gs ("f")) [gs ("name")] []
        [.blockStmt [.basicLit true (gs ("\x22name not found\x22")) 3]])).scopeStack
      = initV.scopeStack ∧
    (walk initV (.funcDecl (gs ("f")) [gs ("name")] []
        [.blockStmt [.basicLit true (gs ("\x22name not found\x22")) 3]])).stringCount
      = initV.stringCount
        + countStrings (.blockStmt [.basicLit true (gs ("\x22name not found\x22")) 3]) := by
  have h := funcDecl_scope_declarations_and_count initV (gs ("f")) [gs ("name")] []
    (.blockStmt [.basicLit true (gs ("\x22name not found\x22")) 3])
  exact ⟨h.1, h.2.1⟩

/-- Claim C5 (corrected, amended): in a block `pre ++ [x := e] ++ post`
walked in source order, a name `nm` bound by the declare-assign statement is
in the visible-name list of every literal visited during `post`; and a
literal visited during `pre` never has `nm` visible, provided `nm` is not
visible on block entry (the already-active enclosing scopes) *and `nm` is
not bound anywhere inside the earlier statements themselves* — the latter
proviso is what the original claim omits (see the counterexample). -/
theorem shortVarDecl_ordering :
    ∀ (s : ScopeV) (pre post lhs rhs : List GoNode) (nm : GoStr),
      nm ∈ identNames lhs →
      ((walk s (.blockStmt (pre ++ .assignStmt true lhs rhs :: post))).visitLog
        = (walkList (walk (walkList (pushScope s) pre) (.assignStmt true lhs rhs))
            post).visitLog) ∧
      (∃ es, (walkList (walk (walkList (pushScope s) pre) (.assignStmt true lhs rhs))
            post).visitLog
          = (walk (walkList (pushScope s) pre) (.assignStmt true lhs rhs)).visitLog ++ es ∧
          ∀ e ∈ es, nm ∈ e.2) ∧
      ((∀ x ∈ inScope s, x ≠ nm) → (∀ x ∈ bindersL pre, x ≠ nm) →
        ∃ es, (walkList (pushScope s) pre).visitLog = s.visitLog ++ es ∧
          ∀ e ∈ es, ∀ x ∈ e.2, x ≠ nm) := by
  intro s pre post lhs rhs nm hnm
  refine ⟨?_, ?_, ?_⟩
  · have hb : walk s (.blockStmt (pre ++ .assignStmt true lhs rhs :: post))
        = popScope (walkList (pushScope s) (pre ++ .assignStmt true lhs rhs :: post)) := by
      simp [walk]
    rw [hb, popScope_visitLog, walkList_append]
    rfl
  · have hne : (walkList (pushScope s) pre).scopeStack ≠ [] :=
      walkList_stack_ne (pushScope s) pre (by simp [pushScope])
    set sPre : ScopeV := walkList (pushScope s) pre with hsPre
    set sMid : ScopeV := walk sPre (.assignStmt true lhs rhs) with hsMid
    have hmid : sMid = walkList (walkList (addIdents sPre lhs) lhs) rhs := by
      rw [hsMid]; simp [walk]
    have haid : (addIdents sPre lhs).scopeStack ≠ [] := by
      rw [addIdents_eq_addNames]
      exact addNames_stack_ne (identNames lhs) sPre hne
    have hnm1 : nm ∈ inScope (addIdents sPre lhs) := by
      rw [addIdents_eq_addNames]
      exact mem_inScope_addNames (identNames lhs) sPre hne nm hnm
    have hnm2 : nm ∈ inScope sMid := by
      rw [hmid]
      exact inScope_walkList_mono _ rhs nm
        (walkList_stack_ne _ lhs haid)
        (inScope_walkList_mono _ lhs nm haid hnm1)
    have hmidne : sMid.scopeStack ≠ [] := by
      rw [hmid]
      exact walkList_stack_ne _ rhs (walkList_stack_ne _ lhs haid)
    rcases (List.eq_nil_or_concat sMid.scopeStack).resolve_left hmidne with ⟨p2, t2, hst2⟩
    rw [List.concat_eq_append] at hst2
    obtain ⟨-, -, -, ⟨es, hlog, -, hev⟩⟩ := walkList_inv sMid post p2 t2 hst2
    exact ⟨es, hlog, fun e he => ((hev e he).1 nm hnm2)⟩
  · intro hout hpre
    have hps : (pushScope s).scopeStack = s.scopeStack ++ [([] : List GoStr)] := rfl
    obtain ⟨-, -, -, ⟨es, hlog, -, hev⟩⟩ :=
      walkList_inv (pushScope s) pre s.scopeStack [] hps
    refine ⟨es, ?_, ?_⟩
    · rw [hlog]; rfl
    · intro e he x hx
      rcases (hev e he).2 x hx with hx' | hx'
      · exact hout x (by rwa [inScope_pushScope] at hx')
      · exact hpre x hx'

/-- Counterexample to claim C5 as stated: in the block
`{ x := _ ; { "q" } ; x := _ }` the name `x` is bound by the declare-assign
at position 2, the only literal sits in the statement at position 1 —
strictly before position 2 — and `x` is not declared in any enclosing scope
active at block entry (the initial visitor's global frame is empty,
`inScope = []`); yet the literal is tested against a visible-name list that
contains `x` (it was bound by the *earlier sibling* at position 0, an
exception the claim does not allow). -/
theorem shortVarDecl_ordering_counterexample :
    inScope initV = [] ∧
    (walk initV cexBlock).visitLog = [(gs ("q"), [gs ("x")])] := by
  constructor
  · rfl
  · decide

/-- Witness for `shortVarDecl_ordering`: block `{ "a" ; x := _ ; "b" }` from
the initial visitor — the literal after the declaration sees `x`, the one
before it does not. -/
theorem shortVarDecl_ordering_witness :
    (∃ es, (walkList (walk (walkList (pushScope initV)
          [.other [.basicLit true (gs ("\x22a\x22")) 1]])
          (.assignStmt true [.ident (gs ("x"))] []))
          [.other [.basicLit true (gs ("\x22b\x22")) 3]]).visitLog
        = (walk (walkList (pushScope initV) [.other [.basicLit true (gs ("\x22a\x22")) 1]])
            (.assignStmt true [.ident (gs ("x"))] [])).visitLog ++ es ∧
        ∀ e ∈ es, gs ("x") ∈ e.2) ∧
    (∃ es, (walkList (pushScope initV)
          [.other [.basicLit true (gs ("\x22a\x22")) 1]]).visitLog
        = initV.visitLog ++ es ∧ ∀ e ∈ es, ∀ x ∈ e.2, x ≠ gs ("x")) := by
  have h := shortVarDecl_ordering initV
    [.other [.basicLit true (gs ("\x22a\x22")) 1]]
    [.other [.basicLit true (gs ("\x22b\x22")) 3]]
    [.ident (gs ("x"))] [] (gs ("x")) (by decide)
  exact ⟨h.2.1, h.2.2 (by decide) (by decide)⟩

/-- Claim C9 (corrected, amended): the text handed to the matcher (and
stored in any created MatchRecord) is `strings.Trim(token, quote-backtick)`:
the token with *all* leading and trailing quote/backtick characters removed.
When the token is a delimiter pair around an inner text that neither starts
nor ends with a quote or backtick, this equals removing exactly the
delimiter pair — but not in general (see the counterexample). -/
theorem literal_trim_delimiters :
    ∀ (s : ScopeV) (line : Nat) (q1 q2 : Nat) (mid : GoStr),
      (q1 = 34 ∨ q1 = 96) → (q2 = 34 ∨ q2 = 96) →
      (∀ d, mid.head? = some d → d ≠ 34 ∧ d ≠ 96) →
      (∀ d, mid.getLast? = some d → d ≠ 34 ∧ d ≠ 96) →
      (walk s (.basicLit true (q1 :: (mid ++ [q2])) line)).visitLog
        = s.visitLog ++ [(mid, inScope s)] ∧
      trimQuotes (q1 :: (mid ++ [q2])) = mid ∧
      ((q1 :: (mid ++ [q2])).drop 1).dropLast = mid ∧
      ∀ mi ∈ (walk s (.basicLit true (q1 :: (mid ++ [q2])) line)).matchList,
        mi ∈ s.matchList ∨ mi.stringText = mid := by
  intro s line q1 q2 mid hq1 hq2 hh hl
  have htrim := trimQuotes_delims q1 q2 mid hq1 hq2 hh hl
  rw [walk_basicLit_true]
  set s1 : ScopeV := { s with stringCount := s.stringCount + 1 } with hs1
  have hin : inScope s1 = inScope s := by simp [inScope, hs1]
  refine ⟨?_, htrim, ?_, ?_⟩
  · rw [checkString_visitLog, htrim, hin]
  · simp
  · intro mi hmi
    rcases checkString_matchList_mem s1 (q1 :: (mid ++ [q2])) line mi hmi with hmi' | hmi'
    · exact Or.inl hmi'
    · exact Or.inr (by rwa [htrim] at hmi')

/-- Witness for `literal_trim_delimiters` at the ordinary token `"hi"`. -/
theorem literal_trim_delimiters_witness :
    trimQuotes (34 :: (gs ("hi") ++ [34])) = gs ("hi") ∧
    ((34 :: (gs ("hi") ++ [34])).drop 1).dropLast = gs ("hi") :=
  ⟨(literal_trim_delimiters initV 1 34 34 (gs ("hi")) (Or.inl rfl) (Or.inl rfl)
      (by decide) (by decide)).2.1,
   (literal_trim_delimiters initV 1 34 34 (gs ("hi")) (Or.inl rfl) (Or.inl rfl)
      (by decide) (by decide)).2.2.1⟩

/-- Counterexample to claim C9 as stated: the raw-string token `` `"hi"` ``
(backtick, quote, h, i, quote, backtick) is a string literal whose
delimiters are the outer backticks; removing exactly the delimiter pair
leaves `"hi"` (quote, h, i, quote), but `strings.Trim` also strips the inner
quotes and the matcher receives plain `hi`: characters other than the
delimiter pair are removed. -/
theorem literal_trim_counterexample :
    trimQuotes [96, 34, 104, 105, 34, 96] = [104, 105] ∧
    (([96, 34, 104, 105, 34, 96] : GoStr).drop 1).dropLast = [34, 104, 105, 34] ∧
    ((trimQuotes [96, 34, 104, 105, 34, 96]
        == (([96, 34, 104, 105, 34, 96] : GoStr).drop 1).dropLast) = false) ∧
    (walk initV (.basicLit true [96, 34, 104, 105, 34, 96] 1)).visitLog
      = [([104, 105], [])] := by
  refine ⟨by decide, by decide, by decide, by decide⟩

end Identfinder
